import Mathlib

/-!
Verification of `freeze.py`, a change-tracking and manual-replication tool.

Shallow embedding conventions:
* Python strings (paths, digests, file text) are modelled as `List Char`.
* A file's byte content is abstracted by its SHA-1 digest: the scanner's
  hashing step is modelled by reading the digest stored for the path in the
  tree's file map, and `shutil.copy2` transports that digest.
* Python `dict` objects are modelled as insertion-ordered association lists
  with unique keys; `dinsert`/`ddel`/`dget` mirror `d[k] = v`, `del d[k]`
  and `d.get(k)` / `d[k]`.
* Fallible operations (uncaught exceptions: `ValueError` from a malformed
  checksum line, `FileNotFoundError` from `os.mkdir` / `shutil.copy2`)
  are modelled with `Option`: `none` means the Python code raises and the
  process dies before performing any further effect.
-/

namespace Freeze

abbrev Str := List Char

/-- A hash database: association list from relative path to hex digest,
mirroring the Python dict `hashdb` (filename ↦ filehash). -/
abbrev HashDb := List (Str × Str)

/-- A directory's regular files: relative path ↦ content digest. -/
abbrev Fs := List (Str × Str)

/-- Characters stripped by Python's argumentless `str.rstrip()`. -/
def pyWhitespace (c : Char) : Bool :=
  c == ' ' || c == '\t' || c == '\n' || c == '\r' || c == '\x0b' || c == '\x0c'

/-- Python `line.rstrip()`: drop trailing whitespace. -/
def rstrip (s : Str) : Str :=
  ((s.reverse).dropWhile pyWhitespace).reverse

/-- Split a string at every newline (the pieces do not keep the `'\n'`). -/
def splitOnNl : Str → List Str
  | [] => [[]]
  | c :: rest =>
    if c = '\n' then [] :: splitOnNl rest
    else
      match splitOnNl rest with
      | [] => [[c]]
      | l :: ls => (c :: l) :: ls

/-- Universal-newlines translation performed by Python 3's text mode
(`open(sumfile, "r")`, freeze.py line 51): every `"\r\n"` pair and every
lone `'\r'` is translated to `'\n'`, so a bare carriage return also
terminates a line. -/
def universalNewlines : Str → Str
  | [] => []
  | [c] => if c = '\r' then ['\n'] else [c]
  | c :: d :: rest =>
    if c = '\r' then
      if d = '\n' then '\n' :: universalNewlines rest
      else '\n' :: universalNewlines (d :: rest)
    else c :: universalNewlines (d :: rest)

/-- Split already-translated text into lines: after `universalNewlines`
the only terminator left is `'\n'`.  The pieces do not keep the `'\n'`
(which `load_db`'s `rstrip` would drop anyway); like Python `readlines`,
a trailing final empty segment is not a line. -/
def pyLines (t : Str) : List Str :=
  match (splitOnNl t).getLast? with
  | some [] => (splitOnNl t).dropLast
  | _ => splitOnNl t

/-- Python `fd.readlines()` on a file opened with `open(sumfile, "r")` as
`load_db` does: universal-newlines translation, then line splitting. -/
def readlines (s : Str) : List Str := pyLines (universalNewlines s)

/-- Python `line.split("\t", maxsplit=1)`: split at the first tab.
`none` models the `ValueError` raised by unpacking when no tab exists. -/
def splitFirstTab : Str → Option (Str × Str)
  | [] => none
  | c :: rest =>
    if c = '\t' then some ([], rest)
    else
      match splitFirstTab rest with
      | some (a, b) => some (c :: a, b)
      | none => none

/-- Python `d.get(k)` / `k in d` lookup on the dict model. -/
def dget : HashDb → Str → Option Str
  | [], _ => none
  | (k', v') :: rest, k => if k' = k then some v' else dget rest k

/-- Python `d[k] = v`: overwrite in place if present, else append. -/
def dinsert : HashDb → Str → Str → HashDb
  | [], k, v => [(k, v)]
  | (k', v') :: rest, k, v =>
    if k' = k then (k, v) :: rest else (k', v') :: dinsert rest k v

/-- Python `del d[k]`. -/
def ddel : HashDb → Str → HashDb
  | [], _ => []
  | (k', v') :: rest, k =>
    if k' = k then ddel rest k else (k', v') :: ddel rest k

/-- Python `d.keys()` in iteration order. -/
def keys (d : HashDb) : List Str := d.map Prod.fst

/-- `write_db(sumfile, hashdb)` (freeze.py lines 23-30): the text written to
the checksum file, one `f"{filehash}\t{filename}\n"` line per entry. -/
def write_db : HashDb → Str
  | [] => []
  | (filename, filehash) :: rest =>
    filehash ++ '\t' :: (filename ++ '\n' :: write_db rest)

/-- The line-processing loop of `load_db` (freeze.py lines 52-55):
`line.rstrip()`, split on the first tab (`ValueError` if absent, modelled
as `none`), then `hashdb[filename] = filehash`. -/
def loadLines : HashDb → List Str → Option HashDb
  | hashdb, [] => some hashdb
  | hashdb, line :: rest =>
    match splitFirstTab (rstrip line) with
    | none => none
    | some (filehash, filename) => loadLines (dinsert hashdb filename filehash) rest

/-- `load_db` applied to the content of an existing checksum file
(freeze.py lines 43-60, the `os.path.exists` branch). -/
def load_db (content : Str) : Option HashDb :=
  loadLines [] (readlines content)

/-- Is a string made of slashes only (helper for `os.path.split`)? -/
def allSlashes (s : Str) : Bool := s.all (· == '/')

/-- Drop trailing `'/'` characters (Python `head.rstrip('/')`). -/
def dropTrailingSlashes (s : Str) : Str :=
  ((s.reverse).dropWhile (· == '/')).reverse

/-- `os.path.split` for POSIX paths: split after the last slash, then strip
trailing slashes from the head unless the head is all slashes. -/
def splitPath (p : Str) : Str × Str :=
  match p.reverse.findIdx? (· == '/') with
  | none => ([], p)
  | some j =>
    let cut := p.length - j
    let head := p.take cut
    let tail := p.drop cut
    (if allSlashes head then head else dropTrailingSlashes head, tail)

/-- `os.mkdir(d)` over an abstract set of existing paths: raises
(`none`) if `d` exists already (`FileExistsError`) or its parent directory
does not exist (`FileNotFoundError`); the empty path also raises.  A parent
of `[]` denotes the current working directory, which exists. -/
def pymkdir (state : List Str) (d : Str) : Option (List Str) :=
  if d = [] then none
  else if d ∈ state then none
  else if (splitPath d).1 = [] ∨ (splitPath d).1 ∈ state then some (d :: state)
  else none

/-- The `while not os.path.exists(directory)` loop of `make_parents`
(freeze.py lines 37-39).  The fuel argument only bounds the walk up the
path; it is larger than any chain of `os.path.split` heads can be. -/
def make_parents_go : Nat → List Str → Str → Option (List Str)
  | 0, _, _ => none
  | fuel + 1, state, directory =>
    if directory ∈ state then some state
    else
      match pymkdir state directory with
      | none => none
      | some state' => make_parents_go fuel state' (splitPath directory).1

/-- `make_parents(filepath)` (freeze.py lines 32-39): starting from the
file's parent directory, `os.mkdir` it while it does not exist, then move
to its parent.  Returns the new set of existing paths, `none` when an
`OSError` escapes. -/
def make_parents (state : List Str) (filepath : Str) : Option (List Str) :=
  make_parents_go (filepath.length + 1) state (splitPath filepath).1

/-- `os.path.join(a, b)` for POSIX paths. -/
def pyJoin (a b : Str) : Str :=
  if b.head? = some '/' then b
  else if a = [] ∨ a.getLast? = some '/' then a ++ b
  else a ++ '/' :: b

/-- Suffix `".sha1sums"` used by the scan filter. -/
def sha1sumsSuffix : Str := ".sha1sums".toList

/-- Suffix `".sha1sums_new"` used by the scan filter. -/
def sha1sumsNewSuffix : Str := ".sha1sums_new".toList

/-- Python `s.endswith(suffix)`. -/
def endswith (s suffix : Str) : Bool := suffix.isSuffixOf s

/-- The filename filter of `check`'s walk (freeze.py line 82): a file is
skipped iff its name ends with `".sha1sums"` or `".sha1sums_new"`.  Since
neither suffix contains a slash, testing the relative path is equivalent to
testing the basename `os.walk` yields. -/
def excluded (p : Str) : Bool :=
  endswith p sha1sumsSuffix || endswith p sha1sumsNewSuffix

/-- The `filelist` built by `check` (freeze.py lines 80-85), paired with
each file's freshly computed digest (the hashing loop of lines 95-105). -/
def scanFiles (files : Fs) : Fs := files.filter (fun e => !excluded e.1)

/-- Python `file in filelist` on the scanned path set. -/
def memPaths (l : Fs) (p : Str) : Bool := l.any (fun e => e.1 == p)

/-- The record returned by `check` (freeze.py lines 119-124). -/
structure CheckResult where
  db : HashDb
  deletions : List Str
  additions : Fs
  changes : Fs
deriving Repr, DecidableEq

/-- The classification loops of `check` (freeze.py lines 95-117): a scanned
path absent from the database is an addition, present with a different
digest a change; a database key absent from the scan is a deletion. -/
def diffOf (hashdb : HashDb) (filelist : Fs) : CheckResult :=
  { db := hashdb
  , additions := filelist.filter (fun e => (dget hashdb e.1).isNone)
  , changes := filelist.filter (fun e =>
      match dget hashdb e.1 with
      | some h => h != e.2
      | none => false)
  , deletions := (keys hashdb).filter (fun k => !memPaths filelist k) }

/-- The implicit fourth class of `check`: scanned paths present in the
database with an equal digest, which the code appends to no collection. -/
def unchangedOf (hashdb : HashDb) (filelist : Fs) : Fs :=
  filelist.filter (fun e => dget hashdb e.1 == some e.2)

/-- A tracked directory tree: its root path, regular files (relative path ↦
content digest, the root sidecar excluded), existing directory paths, and
the raw content of `root/.sha1sums` when that file exists. -/
structure Tree where
  root : Str
  files : Fs
  dirs : List Str
  sidecar : Option Str
deriving Repr, DecidableEq

/-- `check(directory)` (freeze.py lines 62-124): load the sidecar database
(empty when the sidecar is absent — a cold start; `none` when a line is
malformed and `ValueError` escapes), scan, and classify. -/
def check (t : Tree) : Option CheckResult :=
  match (match t.sidecar with
         | some content => load_db content
         | none => some ([] : HashDb)) with
  | none => none
  | some hashdb => some (diffOf hashdb (scanFiles t.files))

/-- `is_dirty(data)` (freeze.py lines 11-21). -/
def is_dirty (data : CheckResult) : Bool :=
  if data.additions.length > 0 then true
  else if data.deletions.length > 0 then true
  else if data.changes.length > 0 then true
  else false

/-- The commit block of `interactive_check` (freeze.py lines 206-215):
insert every addition, then every change, then delete every deletion. -/
def commitDiff (results : CheckResult) : HashDb :=
  let db1 := results.additions.foldl (fun d e => dinsert d e.1 e.2) results.db
  let db2 := results.changes.foldl (fun d e => dinsert d e.1 e.2) db1
  results.deletions.foldl (fun d k => ddel d k) db2

/-- Terminal state of the review workflow: `exit(0)` after "Canceled."
(freeze.py line 204) or a committed database write. -/
inductive ICOutcome where
  | canceled (exitCode : Nat)
  | committed
deriving Repr, DecidableEq

/-- Result of `interactive_check`: the tree afterwards, the database
written to the sidecar by `write_db` if any, and the terminal state. -/
structure ICResult where
  tree : Tree
  written : Option HashDb
  outcome : ICOutcome
deriving Repr, DecidableEq

/-- `commit.startswith("y") or commit.startswith("Y")` (freeze.py line 202). -/
def startswithY (commit : Str) : Bool :=
  match commit with
  | [] => false
  | c :: _ => c == 'y' || c == 'Y'

/-- `interactive_check(directory)` (freeze.py lines 173-216), with the
reviewer's `input()` line passed explicitly.  A non-affirmative answer
prints "Canceled." and calls `exit(0)` with no database mutation; an
affirmative one folds the diff into the database and writes the sidecar. -/
def interactive_check (t : Tree) (commit : Str) : Option ICResult :=
  match check t with
  | none => none
  | some results =>
    if !startswithY commit then
      some { tree := t, written := none, outcome := .canceled 0 }
    else
      let hashdb := commitDiff results
      some { tree := { t with sidecar := some (write_db hashdb) }
           , written := some hashdb
           , outcome := .committed }

/-- How a `replicate` run ended. -/
inductive ROutcome where
  | srcDirtyRefused
  | dstDirtyRefused
  | completed
deriving Repr, DecidableEq

/-- Mutable state of `replicate`'s copy loop: the destination's files and
directories, `newdsthash` (aliasing the loaded destination database), and
the list of file copies performed. -/
structure RState where
  dstFiles : Fs
  dstDirs : List Str
  newdsthash : HashDb
  copies : List Str
deriving Repr, DecidableEq

/-- `shutil.copy2(srcpath, dstpath)`: transport the source file's content
(abstracted by its digest) to the destination path; `none` models the
`FileNotFoundError` when the source file does not exist. -/
def copy2 (srcFiles : Fs) (srcfile : Str) (dstFiles : Fs) : Option Fs :=
  match dget srcFiles srcfile with
  | some contentHash => some (dinsert dstFiles srcfile contentHash)
  | none => none

/-- The addition branch of `replicate`'s loop (freeze.py lines 158-165):
`make_parents(dstpath)`, record the source digest, `copy2`. -/
def replicateAdd (srcFiles : Fs) (dstRoot : Str) (st : RState)
    (srcfile srchash : Str) : Option RState :=
  match make_parents st.dstDirs (pyJoin dstRoot srcfile) with
  | none => none
  | some dirs' =>
    let newdst := dinsert st.newdsthash srcfile srchash
    match copy2 srcFiles srcfile st.dstFiles with
    | none => none
    | some files' =>
      some { dstFiles := files', dstDirs := dirs'
           , newdsthash := newdst, copies := st.copies ++ [srcfile] }

/-- One iteration of `replicate`'s loop over the source database
(freeze.py lines 147-165).  `dsthash = dstdata["db"].get(srcfile)` reads
the dict aliased by `newdsthash`; Python's `if dsthash:` treats both `None`
and the empty string as absent. -/
def replicateStep (srcFiles : Fs) (dstRoot : Str) (st : RState)
    (e : Str × Str) : Option RState :=
  match dget st.newdsthash e.1 with
  | some dsthash =>
    if dsthash = [] then replicateAdd srcFiles dstRoot st e.1 e.2
    else if dsthash ≠ e.2 then
      match copy2 srcFiles e.1 st.dstFiles with
      | none => none
      | some files' =>
        some { st with dstFiles := files',
                       newdsthash := dinsert st.newdsthash e.1 e.2,
                       copies := st.copies ++ [e.1] }
    else some st
  | none => replicateAdd srcFiles dstRoot st e.1 e.2

/-- Run the copy loop over all source database entries. -/
def runLoop (srcFiles : Fs) (dstRoot : Str) :
    List (Str × Str) → RState → Option RState
  | [], st => some st
  | e :: rest, st =>
    match replicateStep srcFiles dstRoot st e with
    | none => none
    | some st' => runLoop srcFiles dstRoot rest st'

/-- Python truthiness test `not srcdata["db"].get(dstfile)`
(freeze.py line 168). -/
def pyFalsy (o : Option Str) : Bool :=
  match o with
  | none => true
  | some s => s == []

/-- Result of a `replicate` run: both trees afterwards, the copies
performed, the deletion candidates reported, the database written to the
destination sidecar if any, and how the run ended. -/
structure ReplicateResult where
  srcTree : Tree
  dstTree : Tree
  copies : List Str
  delCandidates : List Str
  written : Option HashDb
  outcome : ROutcome
deriving Repr, DecidableEq

/-- `replicate(src, dst)` (freeze.py lines 126-171): check both trees,
refuse if either is dirty, otherwise run the copy loop, report deletion
candidates, and write the working database to the destination sidecar.
`none` models an escaped exception (malformed database, `os.mkdir` or
`shutil.copy2` failure), which kills the process before the sidecar write. -/
def replicate (src dst : Tree) : Option ReplicateResult :=
  match check src with
  | none => none
  | some srcdata =>
    match check dst with
    | none => none
    | some dstdata =>
      if is_dirty srcdata then
        some { srcTree := src, dstTree := dst, copies := []
             , delCandidates := [], written := none, outcome := .srcDirtyRefused }
      else if is_dirty dstdata then
        some { srcTree := src, dstTree := dst, copies := []
             , delCandidates := [], written := none, outcome := .dstDirtyRefused }
      else
        match runLoop src.files dst.root srcdata.db
            { dstFiles := dst.files, dstDirs := dst.dirs
            , newdsthash := dstdata.db, copies := [] } with
        | none => none
        | some st =>
          let cands := (keys st.newdsthash).filter
            (fun f => pyFalsy (dget srcdata.db f))
          some { srcTree := src
               , dstTree := { dst with files := st.dstFiles,
                                       dirs := st.dstDirs,
                                       sidecar := some (write_db st.newdsthash) }
               , copies := st.copies
               , delCandidates := cands
               , written := some st.newdsthash
               , outcome := .completed }

/-- `check` with the tree threaded through explicitly: every filesystem
access in `check` (freeze.py lines 62-124) is a read — `os.path.exists`,
`open(..., "r")`, `os.walk`, `open(..., "rb")` — so the state translation
returns the tree as it received it. -/
def check_st (t : Tree) : Option (Tree × CheckResult) :=
  match check t with
  | none => none
  | some r => some (t, r)

/-- Outcome of the `__main__` dispatch (freeze.py lines 219-245). -/
inductive MainResult where
  | usageExit (code : Nat)
  | ranCheck (dir : Str)
  | ranReplicate (src dst : Str)
  | nameError
deriving Repr, DecidableEq

/-- The `__main__` dispatch (freeze.py lines 224-245).  Too few arguments
print the usage text and `exit(1)`.  An unrecognized subcommand reaches
`print("Unrecognize subcommand ", sumcommand)` whose `sumcommand` is an
unbound name: a `NameError` escapes before `usage()` runs, so the
interpreter dies with a traceback instead of the usage message. -/
def mainDispatch (argv : List Str) : MainResult :=
  if argv.length < 2 then .usageExit 1
  else
    let subcommand := argv.getD 1 []
    if subcommand = "check".toList then
      if argv.length < 3 then .usageExit 1
      else .ranCheck (argv.getD 2 [])
    else if subcommand = "replicate".toList then
      if argv.length < 4 then .usageExit 1
      else .ranReplicate (argv.getD 2 []) (argv.getD 3 [])
    else .nameError

/-- A path key survives `write_db`/`load_db` unmangled when it is nonempty,
contains no newline and no carriage return (universal-newlines mode treats
a lone `'\r'` as a line terminator too), and does not end in a character
`rstrip` removes. -/
def safeKey (k : Str) : Bool :=
  (!k.isEmpty) && (!k.contains '\n') && (!k.contains '\r') &&
    (match k.getLast? with
     | some c => !pyWhitespace c
     | none => false)

/-- A digest survives `write_db`/`load_db` when it contains no tab (the
field separator), no newline and no carriage return (both are record
separators under universal-newlines reading). -/
def safeDigest (v : Str) : Bool :=
  (!v.contains '\t') && (!v.contains '\n') && (!v.contains '\r')

/-- Concrete database for the round-trip witness. -/
def wdb4 : HashDb := [(['a'], ['b', 'c']), (['d', 'e'], ['f'])]

/-- Database whose single key contains a newline but no tab. -/
def cdb4 : HashDb := [(['a', '\n', 'b'], ['c', 'd'])]

/-- The reviewer's affirmative answer line. -/
def yesLine : Str := ['y']

/-- Concrete tree for the commit round-trip witness: one changed file and
one new file relative to its sidecar. -/
def wt3 : Tree :=
  { root := []
  , files := [(['f'], ['d', '1']), (['g'], ['d', '2'])]
  , dirs := []
  , sidecar := some (write_db [(['f'], ['d', '0'])]) }

/-- The result of committing `wt3`'s diff with an affirmative answer. -/
def res3 : ICResult :=
  { tree := { wt3 with
      sidecar := some (write_db [(['f'], ['d', '1']), (['g'], ['d', '2'])]) }
  , written := some [(['f'], ['d', '1']), (['g'], ['d', '2'])]
  , outcome := .committed }

/-- Tree containing a file whose name has a newline. -/
def ct3 : Tree :=
  { root := [], files := [(['a', '\n', 'b'], ['c'])], dirs := [], sidecar := none }

/-- The result of committing `ct3`'s diff. -/
def cres3 : ICResult :=
  { tree := { ct3 with sidecar := some (write_db [(['a', '\n', 'b'], ['c'])]) }
  , written := some [(['a', '\n', 'b'], ['c'])]
  , outcome := .committed }

/-- A source tree with an uncommitted addition (no sidecar at all). -/
def dsrc1 : Tree :=
  { root := [], files := [(['f'], ['x'])], dirs := [], sidecar := none }

/-- An empty, clean destination tree. -/
def ddst1 : Tree := { root := [], files := [], dirs := [], sidecar := none }

/-- The diff of `dsrc1` against its (empty) database. -/
def sd1 : CheckResult :=
  { db := [], deletions := [], additions := [(['f'], ['x'])], changes := [] }

/-- The diff of `ddst1` against its (empty) database. -/
def dd1 : CheckResult :=
  { db := [], deletions := [], additions := [], changes := [] }

/-- A reviewer line declining the commit. -/
def noLine : Str := ['n']

/-- A tree with one untracked file, used for the cancellation runs. -/
def t6 : Tree :=
  { root := [], files := [(['f'], ['x'])], dirs := [], sidecar := none }

/-- The diff of `t6` against its (empty) database. -/
def r6 : CheckResult :=
  { db := [], deletions := [], additions := [(['f'], ['x'])], changes := [] }

/-- A clean source tree tracking one file `f`. -/
def wsrc : Tree :=
  { root := ['/', 's'], files := [(['f'], ['x'])]
  , dirs := [['/'], ['/', 's']]
  , sidecar := some (write_db [(['f'], ['x'])]) }

/-- A clean destination tree tracking `f` (stale digest) and `o`
(absent from the source). -/
def wdst : Tree :=
  { root := ['/', 't'], files := [(['f'], ['x', '0']), (['o'], ['z'])]
  , dirs := [['/'], ['/', 't']]
  , sidecar := some (write_db [(['f'], ['x', '0']), (['o'], ['z'])]) }

/-- The (clean) diff of `wsrc`. -/
def wsrcdata : CheckResult :=
  { db := [(['f'], ['x'])], deletions := [], additions := [], changes := [] }

/-- The (clean) diff of `wdst`. -/
def wdstdata : CheckResult :=
  { db := [(['f'], ['x', '0']), (['o'], ['z'])]
  , deletions := [], additions := [], changes := [] }

/-- The completed result of `replicate wsrc wdst`: `f` is copied, `o` is
only reported. -/
def wrres : ReplicateResult :=
  { srcTree := wsrc
  , dstTree := { root := ['/', 't'], files := [(['f'], ['x']), (['o'], ['z'])]
               , dirs := [['/'], ['/', 't']]
               , sidecar := some (write_db [(['f'], ['x']), (['o'], ['z'])]) }
  , copies := [['f']]
  , delCandidates := [['o']]
  , written := some [(['f'], ['x']), (['o'], ['z'])]
  , outcome := .completed }

/-- Directory state in which only `/` and `/d` exist. -/
def mpDirs : List Str := [['/'], ['/', 'd']]

/-- Files for the exclusion witness: a sidecar-named file and a normal one. -/
def files9 : Fs := [(".sha1sums".toList, ['x']), (['f'], ['y'])]

/-- The unchanged-tree pair returned by a `check_st` run on `t6`. -/
def cres10 : ICResult :=
  { tree := t6, written := none, outcome := ICOutcome.canceled 0 }

theorem dget_dinsert_self (d : HashDb) (k v : Str) :
    dget (dinsert d k v) k = some v := by
  induction d with
  | nil => simp [dinsert, dget]
  | cons e rest ih =>
    obtain ⟨k', v'⟩ := e
    by_cases h : k' = k
    · simp [dinsert, h, dget]
    · simp [dinsert, h, dget, ih]

theorem dget_dinsert_ne (d : HashDb) (k v p : Str) (h : p ≠ k) :
    dget (dinsert d k v) p = dget d p := by
  induction d with
  | nil => simp [dinsert, dget, Ne.symm h]
  | cons e rest ih =>
    obtain ⟨k', v'⟩ := e
    by_cases hk : k' = k
    · subst hk
      simp [dinsert, dget, Ne.symm h]
    · simp [dinsert, hk, dget, ih]

theorem dget_ddel_self (d : HashDb) (k : Str) :
    dget (ddel d k) k = none := by
  induction d with
  | nil => simp [ddel, dget]
  | cons e rest ih =>
    obtain ⟨k', v'⟩ := e
    by_cases h : k' = k
    · simp [ddel, h, ih]
    · simp [ddel, h, dget, ih]

theorem dget_ddel_ne (d : HashDb) (k p : Str) (h : p ≠ k) :
    dget (ddel d k) p = dget d p := by
  induction d with
  | nil => simp [ddel, dget]
  | cons e rest ih =>
    obtain ⟨k', v'⟩ := e
    by_cases hk : k' = k
    · subst hk
      simp [ddel, dget, Ne.symm h, ih]
    · simp [ddel, hk, dget, ih]

theorem dget_isSome_iff_mem_keys (d : HashDb) (k : Str) :
    (dget d k).isSome = true ↔ k ∈ keys d := by
  induction d with
  | nil => simp [dget, keys]
  | cons e rest ih =>
    obtain ⟨k', v'⟩ := e
    by_cases h : k' = k
    · simp [dget, h, keys]
    · simp [dget, h, keys, ih, Ne.symm h]

theorem dget_eq_none_iff (d : HashDb) (k : Str) :
    dget d k = none ↔ k ∉ keys d := by
  rw [← dget_isSome_iff_mem_keys]
  cases dget d k <;> simp

theorem mem_of_dget_eq_some (d : HashDb) (k v : Str) (h : dget d k = some v) :
    (k, v) ∈ d := by
  induction d with
  | nil => simp [dget] at h
  | cons e rest ih =>
    obtain ⟨k', v'⟩ := e
    by_cases hk : k' = k
    · subst hk
      simp [dget] at h
      simp [h]
    · simp [dget, hk] at h
      simp [ih h]

theorem dget_eq_some_of_mem_nodup (d : HashDb) (k v : Str)
    (hnd : (keys d).Nodup) (h : (k, v) ∈ d) : dget d k = some v := by
  induction d with
  | nil => simp at h
  | cons e rest ih =>
    obtain ⟨k', v'⟩ := e
    have hnd2 : (k' :: (rest.map Prod.fst)).Nodup := hnd
    have hnc := List.nodup_cons.mp hnd2
    rcases List.mem_cons.mp h with he | hrest
    · injection he with h1 h2
      subst h1
      subst h2
      simp [dget]
    · have hk : k' ≠ k := by
        intro hkk
        subst hkk
        exact hnc.1 (List.mem_map.mpr ⟨(k', v), hrest, rfl⟩)
      simp [dget, hk]
      exact ih hnc.2 hrest

theorem memPaths_iff_mem_keys (l : Fs) (p : Str) :
    memPaths l p = true ↔ p ∈ keys l := by
  simp [memPaths, List.any_eq_true, keys, List.mem_map, beq_iff_eq]

theorem dget_isSome_of_fst_mem (l : Fs) (e : Str × Str) (h : e ∈ l) :
    (dget l e.1).isSome = true := by
  rw [dget_isSome_iff_mem_keys]
  exact List.mem_map.mpr ⟨e, h, rfl⟩

theorem keys_dinsert (d : HashDb) (k v : Str) :
    keys (dinsert d k v) = if k ∈ keys d then keys d else keys d ++ [k] := by
  induction d with
  | nil => simp [dinsert, keys]
  | cons e rest ih =>
    obtain ⟨k', v'⟩ := e
    by_cases h : k' = k
    · simp [dinsert, h, keys]
    · have hcond : (k ∈ keys ((k', v') :: rest)) ↔ (k ∈ keys rest) := by
        simp [keys, Ne.symm h]
      have ih' : List.map Prod.fst (dinsert rest k v)
          = if k ∈ keys rest then keys rest else keys rest ++ [k] := ih
      by_cases hm : k ∈ keys rest
      · rw [if_pos (hcond.mpr hm)]
        rw [if_pos hm] at ih'
        simp [dinsert, h, keys, ih']
      · rw [if_neg (fun hc => hm (hcond.mp hc))]
        rw [if_neg hm] at ih'
        simp [dinsert, h, keys, ih']

theorem nodup_keys_dinsert (d : HashDb) (k v : Str)
    (hnd : (keys d).Nodup) : (keys (dinsert d k v)).Nodup := by
  rw [keys_dinsert]
  by_cases h : k ∈ keys d
  · simpa [h]
  · simp [h, List.nodup_append, hnd]

theorem ddel_sublist (d : HashDb) (k : Str) : (ddel d k).Sublist d := by
  induction d with
  | nil => simp [ddel]
  | cons e rest ih =>
    obtain ⟨k', v'⟩ := e
    by_cases h : k' = k
    · simp only [ddel, if_pos h]
      exact ih.cons _
    · simp only [ddel, if_neg h]
      exact ih.cons₂ _

theorem nodup_keys_ddel (d : HashDb) (k : Str)
    (hnd : (keys d).Nodup) : (keys (ddel d k)).Nodup := by
  exact List.Nodup.sublist ((ddel_sublist d k).map Prod.fst) hnd

theorem dget_foldl_dinsert_of_forall_ne (l : Fs) (d : HashDb) (p : Str)
    (h : ∀ e ∈ l, e.1 ≠ p) :
    dget (l.foldl (fun d e => dinsert d e.1 e.2) d) p = dget d p := by
  induction l generalizing d with
  | nil => simp
  | cons e rest ih =>
    simp only [List.foldl_cons]
    rw [ih _ (fun e' he' => h e' (List.mem_cons_of_mem _ he'))]
    exact dget_dinsert_ne _ _ _ _ (fun hp => h e (List.mem_cons_self _ _) hp.symm)

theorem dget_foldl_dinsert_of_mem (l : Fs) (d : HashDb) (p v : Str)
    (hnd : (keys l).Nodup) (hm : (p, v) ∈ l) :
    dget (l.foldl (fun d e => dinsert d e.1 e.2) d) p = some v := by
  induction l generalizing d with
  | nil => simp at hm
  | cons e rest ih =>
    have hnd2 : (e.1 :: (rest.map Prod.fst)).Nodup := hnd
    have hnc := List.nodup_cons.mp hnd2
    simp only [List.foldl_cons]
    rcases List.mem_cons.mp hm with he | hrest
    · subst he
      rw [dget_foldl_dinsert_of_forall_ne]
      · exact dget_dinsert_self _ _ _
      · intro e' he' hp
        exact hnc.1 (by rw [← hp]; exact List.mem_map.mpr ⟨e', he', rfl⟩)
    · exact ih _ hnc.2 hrest

theorem dget_foldl_ddel_of_not_mem (l : List Str) (d : HashDb) (p : Str)
    (h : p ∉ l) :
    dget (l.foldl (fun d k => ddel d k) d) p = dget d p := by
  induction l generalizing d with
  | nil => simp
  | cons k rest ih =>
    simp only [List.foldl_cons]
    rw [ih _ (fun hm => h (List.mem_cons_of_mem _ hm))]
    exact dget_ddel_ne _ _ _ (fun hp => h (hp ▸ List.mem_cons_self _ _))

theorem dget_foldl_ddel_of_mem (l : List Str) (d : HashDb) (p : Str)
    (h : p ∈ l) :
    dget (l.foldl (fun d k => ddel d k) d) p = none := by
  induction l generalizing d with
  | nil => simp at h
  | cons k rest ih =>
    simp only [List.foldl_cons]
    rcases List.mem_cons.mp h with he | hrest
    · subst he
      by_cases hm : p ∈ rest
      · exact ih _ hm
      · rw [dget_foldl_ddel_of_not_mem _ _ _ hm]
        exact dget_ddel_self _ _
    · exact ih _ hrest

theorem keys_filter_sublist (l : Fs) (f : Str × Str → Bool) :
    (keys (l.filter f)).Sublist (keys l) :=
  List.Sublist.map Prod.fst (List.filter_sublist l)

theorem memPaths_filter (l : Fs) (f : Str × Str → Bool) (p : Str) :
    memPaths (l.filter f) p = true ↔ ∃ e ∈ l, e.1 = p ∧ f e = true := by
  simp [memPaths, List.any_eq_true, List.mem_filter, beq_iff_eq]
  tauto

theorem memPaths_true_of_mem (l : Fs) (e : Str × Str) (h : e ∈ l) :
    memPaths l e.1 = true := by
  unfold memPaths
  rw [List.any_eq_true]
  exact ⟨e, h, by simp⟩

theorem dget_commitDiff_diffOf (hashdb : HashDb) (filelist : Fs)
    (hnd : (keys filelist).Nodup) (p : Str) :
    dget (commitDiff (diffOf hashdb filelist)) p = dget filelist p := by
  unfold commitDiff diffOf
  simp only
  cases hscan : dget filelist p with
  | some d =>
    have hmem : (p, d) ∈ filelist := mem_of_dget_eq_some _ _ _ hscan
    have hdelnm : p ∉ (keys hashdb).filter (fun k => !memPaths filelist k) := by
      intro hk
      have h2 := (List.mem_filter.mp hk).2
      rw [memPaths_true_of_mem filelist (p, d) hmem] at h2
      simp at h2
    rw [dget_foldl_ddel_of_not_mem _ _ _ hdelnm]
    cases hdb : dget hashdb p with
    | none =>
      have hch : ∀ e ∈ filelist.filter (fun e =>
          match dget hashdb e.1 with | some h => h != e.2 | none => false),
          e.1 ≠ p := by
        intro e he hp
        have h2 := (List.mem_filter.mp he).2
        rw [hp, hdb] at h2
        simp at h2
      rw [dget_foldl_dinsert_of_forall_ne _ _ _ hch]
      have hadd : (p, d) ∈ filelist.filter (fun e => (dget hashdb e.1).isNone) := by
        rw [List.mem_filter]
        exact ⟨hmem, by simp [hdb]⟩
      exact dget_foldl_dinsert_of_mem _ _ _ _
        (List.Nodup.sublist (keys_filter_sublist _ _) hnd) hadd
    | some h =>
      have haddne : ∀ e ∈ filelist.filter (fun e => (dget hashdb e.1).isNone),
          e.1 ≠ p := by
        intro e he hp
        have h2 := (List.mem_filter.mp he).2
        rw [hp, hdb] at h2
        simp at h2
      by_cases hhd : h = d
      · have hch : ∀ e ∈ filelist.filter (fun e =>
            match dget hashdb e.1 with | some h => h != e.2 | none => false),
            e.1 ≠ p := by
          intro e he hp
          have hin := (List.mem_filter.mp he).1
          have h2 := (List.mem_filter.mp he).2
          have hed : e.2 = d := by
            have hsome := dget_eq_some_of_mem_nodup filelist e.1 e.2 hnd
              (by exact hin)
            rw [hp, hscan] at hsome
            exact (Option.some_inj.mp hsome).symm
          rw [hp, hdb, hed, hhd] at h2
          simp at h2
        rw [dget_foldl_dinsert_of_forall_ne _ _ _ hch]
        rw [dget_foldl_dinsert_of_forall_ne _ _ _ haddne]
        rw [hdb, hhd]
      · have hchm : (p, d) ∈ filelist.filter (fun e =>
            match dget hashdb e.1 with | some h => h != e.2 | none => false) := by
          rw [List.mem_filter]
          refine ⟨hmem, ?_⟩
          simp only [hdb]
          simpa using hhd
        rw [dget_foldl_dinsert_of_mem _ _ _ _
          (List.Nodup.sublist (keys_filter_sublist _ _) hnd) hchm]
  | none =>
    have hnm : p ∉ keys filelist := (dget_eq_none_iff _ _).mp hscan
    have hmp : memPaths filelist p = false := by
      cases hb : memPaths filelist p
      · rfl
      · exact absurd ((memPaths_iff_mem_keys _ _).mp hb) hnm
    have haddne : ∀ e ∈ filelist.filter (fun e => (dget hashdb e.1).isNone),
        e.1 ≠ p := by
      intro e he hp
      exact hnm (hp ▸ List.mem_map.mpr ⟨e, (List.mem_filter.mp he).1, rfl⟩)
    have hchne : ∀ e ∈ filelist.filter (fun e =>
        match dget hashdb e.1 with | some h => h != e.2 | none => false),
        e.1 ≠ p := by
      intro e he hp
      exact hnm (hp ▸ List.mem_map.mpr ⟨e, (List.mem_filter.mp he).1, rfl⟩)
    cases hdb : dget hashdb p with
    | some h =>
      have hdel : p ∈ (keys hashdb).filter (fun k => !memPaths filelist k) := by
        rw [List.mem_filter]
        refine ⟨?_, by simp [hmp]⟩
        rw [← dget_isSome_iff_mem_keys, hdb]
        rfl
      exact dget_foldl_ddel_of_mem _ _ _ hdel
    | none =>
      have hdelnm : p ∉ (keys hashdb).filter (fun k => !memPaths filelist k) := by
        intro hk
        have h1 := (List.mem_filter.mp hk).1
        rw [← dget_isSome_iff_mem_keys, hdb] at h1
        simp at h1
      rw [dget_foldl_ddel_of_not_mem _ _ _ hdelnm]
      rw [dget_foldl_dinsert_of_forall_ne _ _ _ hchne]
      rw [dget_foldl_dinsert_of_forall_ne _ _ _ haddne]
      exact hdb

theorem diffOf_empty_of_agree (db : HashDb) (filelist : Fs)
    (hnd : (keys filelist).Nodup)
    (hag : ∀ p, dget db p = dget filelist p) :
    (diffOf db filelist).additions = [] ∧ (diffOf db filelist).changes = []
      ∧ (diffOf db filelist).deletions = [] := by
  refine ⟨?_, ?_, ?_⟩
  · rw [show (diffOf db filelist).additions
        = filelist.filter (fun e => (dget db e.1).isNone) from rfl]
    rw [List.filter_eq_nil_iff]
    intro e he
    have : dget db e.1 = some e.2 := by
      rw [hag]
      exact dget_eq_some_of_mem_nodup filelist e.1 e.2 hnd (by exact he)
    simp [this]
  · rw [show (diffOf db filelist).changes
        = filelist.filter (fun e =>
            match dget db e.1 with | some h => h != e.2 | none => false) from rfl]
    rw [List.filter_eq_nil_iff]
    intro e he
    have : dget db e.1 = some e.2 := by
      rw [hag]
      exact dget_eq_some_of_mem_nodup filelist e.1 e.2 hnd (by exact he)
    simp [this]
  · rw [show (diffOf db filelist).deletions
        = (keys db).filter (fun k => !memPaths filelist k) from rfl]
    rw [List.filter_eq_nil_iff]
    intro k hk
    have h1 : (dget db k).isSome = true := (dget_isSome_iff_mem_keys _ _).mpr hk
    rw [hag] at h1
    have h2 : k ∈ keys filelist := (dget_isSome_iff_mem_keys _ _).mp h1
    rw [(memPaths_iff_mem_keys _ _).mpr h2]
    simp

theorem splitOnNl_ne_nil (s : Str) : splitOnNl s ≠ [] := by
  cases s with
  | nil => simp [splitOnNl]
  | cons c rest =>
    by_cases h : c = '\n'
    · simp [splitOnNl, h]
    · simp only [splitOnNl, if_neg h]
      cases splitOnNl rest <;> simp

theorem splitOnNl_cons_ne (c : Char) (s : Str) (h : c ≠ '\n') :
    splitOnNl (c :: s) = match splitOnNl s with
      | [] => [[c]]
      | l :: ls => (c :: l) :: ls := by
  simp only [splitOnNl, if_neg h]

theorem splitOnNl_append_cons (a s : Str) (h : '\n' ∉ a) :
    splitOnNl (a ++ '\n' :: s) = a :: splitOnNl s := by
  induction a with
  | nil => simp [splitOnNl]
  | cons c a' ih =>
    have hc : c ≠ '\n' := fun hh => h (by rw [hh]; exact List.mem_cons_self _ _)
    have h' : '\n' ∉ a' := fun hm => h (List.mem_cons_of_mem _ hm)
    rw [List.cons_append, splitOnNl_cons_ne c _ hc, ih h']

theorem pyLines_append (a s : Str) (h : '\n' ∉ a) :
    pyLines (a ++ '\n' :: s) = a :: pyLines s := by
  unfold pyLines
  rw [splitOnNl_append_cons a s h]
  cases hs : splitOnNl s with
  | nil => exact absurd hs (splitOnNl_ne_nil s)
  | cons l ls =>
    rw [List.getLast?_cons_cons]
    cases hlast : (l :: ls).getLast? with
    | none => rfl
    | some l0 =>
      cases l0 with
      | nil => rfl
      | cons c cs => rfl

theorem universalNewlines_cons_of_ne (c : Char) (s : Str) (h : c ≠ '\r') :
    universalNewlines (c :: s) = c :: universalNewlines s := by
  cases s with
  | nil => simp [universalNewlines, h]
  | cons d rest => simp [universalNewlines, h]

theorem universalNewlines_append_cons (a s : Str) (h : '\r' ∉ a) :
    universalNewlines (a ++ '\n' :: s) = a ++ '\n' :: universalNewlines s := by
  induction a with
  | nil => exact universalNewlines_cons_of_ne '\n' s (by decide)
  | cons c a' ih =>
    have hc : c ≠ '\r' := fun hh => h (by rw [hh]; exact List.mem_cons_self _ _)
    have h' : '\r' ∉ a' := fun hm => h (List.mem_cons_of_mem _ hm)
    rw [List.cons_append, universalNewlines_cons_of_ne c _ hc, ih h']
    rfl

theorem readlines_append (a s : Str) (ha : '\n' ∉ a) (hr : '\r' ∉ a) :
    readlines (a ++ '\n' :: s) = a :: readlines s := by
  unfold readlines
  rw [universalNewlines_append_cons a s hr]
  exact pyLines_append a (universalNewlines s) ha

theorem rstrip_concat (l : Str) (c : Char) (h : pyWhitespace c = false) :
    rstrip (l ++ [c]) = l ++ [c] := by
  unfold rstrip
  rw [List.reverse_append]
  simp [List.dropWhile_cons, h]

theorem splitFirstTab_cons_ne (c : Char) (s : Str) (h : c ≠ '\t') :
    splitFirstTab (c :: s) = match splitFirstTab s with
      | some (a, b) => some (c :: a, b)
      | none => none := by
  simp only [splitFirstTab, if_neg h]

theorem splitFirstTab_append (v k : Str) (h : '\t' ∉ v) :
    splitFirstTab (v ++ '\t' :: k) = some (v, k) := by
  induction v with
  | nil => simp [splitFirstTab]
  | cons c v' ih =>
    have hc : c ≠ '\t' := fun hh => h (by rw [hh]; exact List.mem_cons_self _ _)
    have h' : '\t' ∉ v' := fun hm => h (List.mem_cons_of_mem _ hm)
    rw [List.cons_append, splitFirstTab_cons_ne c _ hc, ih h']

theorem dinsert_eq_append (d : HashDb) (k v : Str) (h : k ∉ keys d) :
    dinsert d k v = d ++ [(k, v)] := by
  induction d with
  | nil => simp [dinsert]
  | cons e rest ih =>
    obtain ⟨k', v'⟩ := e
    have hcons : k ∉ (k' :: keys rest) := h
    have hk : k' ≠ k := fun hh => hcons (by rw [hh]; exact List.mem_cons_self _ _)
    have h' : k ∉ keys rest := fun hm => hcons (List.mem_cons_of_mem _ hm)
    simp [dinsert, hk, ih h']

theorem safeKey_spec (k : Str) (h : safeKey k = true) :
    k ≠ [] ∧ '\n' ∉ k ∧ '\r' ∉ k
      ∧ ∀ c, k.getLast? = some c → pyWhitespace c = false := by
  unfold safeKey at h
  rw [Bool.and_eq_true, Bool.and_eq_true, Bool.and_eq_true] at h
  obtain ⟨⟨⟨h1, h2⟩, h3⟩, h4⟩ := h
  refine ⟨?_, ?_, ?_, ?_⟩
  · intro hk
    rw [hk] at h1
    simp at h1
  · intro hm
    rw [Bool.not_eq_true'] at h2
    have hcon : k.contains '\n' = true := by simpa using hm
    rw [h2] at hcon
    exact Bool.false_ne_true hcon
  · intro hm
    rw [Bool.not_eq_true'] at h3
    have hcon : k.contains '\r' = true := by simpa using hm
    rw [h3] at hcon
    exact Bool.false_ne_true hcon
  · intro c hc
    rw [hc] at h4
    simpa using h4

theorem safeDigest_spec (v : Str) (h : safeDigest v = true) :
    '\t' ∉ v ∧ '\n' ∉ v ∧ '\r' ∉ v := by
  unfold safeDigest at h
  rw [Bool.and_eq_true, Bool.and_eq_true] at h
  obtain ⟨⟨h1, h2⟩, h3⟩ := h
  rw [Bool.not_eq_true'] at h1 h2 h3
  refine ⟨?_, ?_, ?_⟩
  · intro hm
    have : v.contains '\t' = true := by simpa using hm
    rw [h1] at this
    exact Bool.false_ne_true this
  · intro hm
    have : v.contains '\n' = true := by simpa using hm
    rw [h2] at this
    exact Bool.false_ne_true this
  · intro hm
    have : v.contains '\r' = true := by simpa using hm
    rw [h3] at this
    exact Bool.false_ne_true this

theorem loadLines_write_db (db : HashDb) :
    ∀ acc : HashDb,
      (∀ e ∈ db, safeKey e.1 = true ∧ safeDigest e.2 = true) →
      (keys db).Nodup →
      (∀ k ∈ keys db, k ∉ keys acc) →
      loadLines acc (readlines (write_db db)) = some (acc ++ db) := by
  induction db with
  | nil =>
    intro acc _ _ _
    simp [write_db, readlines, universalNewlines, pyLines, splitOnNl, loadLines]
  | cons e rest ih =>
    intro acc hsafe hnd hfresh
    obtain ⟨k, v⟩ := e
    have hks := safeKey_spec k (hsafe (k, v) (List.mem_cons_self _ _)).1
    have hvs := safeDigest_spec v (hsafe (k, v) (List.mem_cons_self _ _)).2
    have hline : write_db ((k, v) :: rest)
        = (v ++ '\t' :: k) ++ '\n' :: write_db rest := by
      simp [write_db]
    have hnach : '\n' ∉ (v ++ '\t' :: k) := by
      intro hm
      rcases List.mem_append.mp hm with h1 | h1
      · exact hvs.2.1 h1
      · rcases List.mem_cons.mp h1 with h2 | h2
        · exact absurd h2 (by decide)
        · exact hks.2.1 h2
    have hnacr : '\r' ∉ (v ++ '\t' :: k) := by
      intro hm
      rcases List.mem_append.mp hm with h1 | h1
      · exact hvs.2.2 h1
      · rcases List.mem_cons.mp h1 with h2 | h2
        · exact absurd h2 (by decide)
        · exact hks.2.2.1 h2
    rw [hline, readlines_append _ _ hnach hnacr]
    obtain ⟨k', c, hk'⟩ : ∃ k' c, k = k' ++ [c] := by
      rcases List.eq_nil_or_concat k with hnil | ⟨k', c, hcc⟩
      · exact absurd hnil hks.1
      · exact ⟨k', c, by simpa using hcc⟩
    have hcws : pyWhitespace c = false := by
      apply hks.2.2.2
      rw [hk']
      exact List.getLast?_concat k'
    have hr : rstrip (v ++ '\t' :: k) = v ++ '\t' :: k := by
      rw [hk', show v ++ '\t' :: (k' ++ [c]) = (v ++ '\t' :: k') ++ [c] from by simp]
      exact rstrip_concat _ _ hcws
    simp only [loadLines, hr, splitFirstTab_append v k hvs.1]
    have hkfresh : k ∉ keys acc := hfresh k (List.mem_cons_self _ _)
    rw [dinsert_eq_append acc k v hkfresh]
    have hnd2 : (k :: keys rest).Nodup := hnd
    have hnc := List.nodup_cons.mp hnd2
    have hkeysapp : keys (acc ++ [(k, v)]) = keys acc ++ [k] := by
      simp [keys]
    rw [ih (acc ++ [(k, v)]) (fun e he => hsafe e (List.mem_cons_of_mem _ he))
      hnc.2 ?fresh]
    · simp
    case fresh =>
      intro k2 hk2
      rw [hkeysapp]
      intro hmm
      rcases List.mem_append.mp hmm with h1 | h1
      · exact hfresh k2 (List.mem_cons_of_mem _ hk2) h1
      · rcases List.mem_cons.mp h1 with h2 | h2
        · exact hnc.1 (h2 ▸ hk2)
        · simp at h2

theorem nodup_keys_loadLines (lines : List Str) :
    ∀ acc db : HashDb, (keys acc).Nodup →
      loadLines acc lines = some db → (keys db).Nodup := by
  induction lines with
  | nil =>
    intro acc db hnd h
    simp only [loadLines, Option.some_inj] at h
    rw [← h]
    exact hnd
  | cons line rest ih =>
    intro acc db hnd h
    simp only [loadLines] at h
    cases hsp : splitFirstTab (rstrip line) with
    | none =>
      rw [hsp] at h
      exact absurd h (by simp)
    | some pr =>
      obtain ⟨fh, fn⟩ := pr
      rw [hsp] at h
      exact ih _ _ (nodup_keys_dinsert _ _ _ hnd) h

theorem nodup_keys_load_db (content : Str) (db : HashDb)
    (h : load_db content = some db) : (keys db).Nodup :=
  nodup_keys_loadLines _ [] db (by simp [keys]) h

theorem nodup_keys_foldl_dinsert (l : Fs) :
    ∀ d : HashDb, (keys d).Nodup →
      (keys (l.foldl (fun d e => dinsert d e.1 e.2) d)).Nodup := by
  induction l with
  | nil => intro d h; simpa
  | cons e rest ih =>
    intro d h
    simp only [List.foldl_cons]
    exact ih _ (nodup_keys_dinsert _ _ _ h)

theorem nodup_keys_foldl_ddel (l : List Str) :
    ∀ d : HashDb, (keys d).Nodup →
      (keys (l.foldl (fun d k => ddel d k) d)).Nodup := by
  induction l with
  | nil => intro d h; simpa
  | cons k rest ih =>
    intro d h
    simp only [List.foldl_cons]
    exact ih _ (nodup_keys_ddel _ _ h)

theorem nodup_keys_commitDiff (r : CheckResult) (h : (keys r.db).Nodup) :
    (keys (commitDiff r)).Nodup := by
  unfold commitDiff
  exact nodup_keys_foldl_ddel _ _ (nodup_keys_foldl_dinsert _ _
    (nodup_keys_foldl_dinsert _ _ h))

theorem check_elim (t : Tree) (r : CheckResult) (h : check t = some r) :
    r = diffOf r.db (scanFiles t.files) ∧ (keys r.db).Nodup := by
  unfold check at h
  cases hs : t.sidecar with
  | none =>
    rw [hs] at h
    simp only [Option.some_inj] at h
    rw [← h]
    exact ⟨rfl, by simp [diffOf, keys]⟩
  | some content =>
    rw [hs] at h
    have h2 : (match load_db content with
        | none => none
        | some hashdb => some (diffOf hashdb (scanFiles t.files))) = some r := h
    cases hl : load_db content with
    | none =>
      rw [hl] at h2
      exact absurd h2 (by simp)
    | some db0 =>
      rw [hl] at h2
      simp only [Option.some_inj] at h2
      rw [← h2]
      exact ⟨rfl, nodup_keys_load_db content db0 hl⟩

theorem exists_of_memPaths (l : Fs) (p : Str) (h : memPaths l p = true) :
    ∃ e ∈ l, e.1 = p := by
  unfold memPaths at h
  rw [List.any_eq_true] at h
  obtain ⟨e, he, hb⟩ := h
  exact ⟨e, he, by simpa using hb⟩

theorem memPaths_additions_iff (hashdb : HashDb) (filelist : Fs) (p : Str) :
    memPaths (diffOf hashdb filelist).additions p = true ↔
      (memPaths filelist p = true ∧ dget hashdb p = none) := by
  rw [show (diffOf hashdb filelist).additions
      = filelist.filter (fun e => (dget hashdb e.1).isNone) from rfl]
  rw [memPaths_filter]
  constructor
  · rintro ⟨e, he, hp, hf⟩
    subst hp
    refine ⟨memPaths_true_of_mem _ _ he, ?_⟩
    simpa [Option.isNone_iff_eq_none] using hf
  · rintro ⟨hm, hn⟩
    obtain ⟨e, he, hp⟩ := exists_of_memPaths _ _ hm
    refine ⟨e, he, hp, ?_⟩
    rw [hp, hn]
    rfl

theorem memPaths_changes_iff (hashdb : HashDb) (filelist : Fs) (p : Str) :
    memPaths (diffOf hashdb filelist).changes p = true ↔
      ∃ e ∈ filelist, e.1 = p ∧ ∃ h0, dget hashdb p = some h0 ∧ h0 ≠ e.2 := by
  rw [show (diffOf hashdb filelist).changes
      = filelist.filter (fun e =>
          match dget hashdb e.1 with
          | some h => h != e.2
          | none => false) from rfl]
  rw [memPaths_filter]
  constructor
  · rintro ⟨e, he, hp, hf⟩
    subst hp
    cases hdb : dget hashdb e.1 with
    | none =>
      rw [hdb] at hf
      simp at hf
    | some h0 =>
      rw [hdb] at hf
      exact ⟨e, he, rfl, h0, rfl, by simpa using hf⟩
  · rintro ⟨e, he, hp, h0, hdb, hne⟩
    refine ⟨e, he, hp, ?_⟩
    rw [hp, hdb]
    simpa using hne

theorem memPaths_unchanged_iff (hashdb : HashDb) (filelist : Fs) (p : Str) :
    memPaths (unchangedOf hashdb filelist) p = true ↔
      ∃ e ∈ filelist, e.1 = p ∧ dget hashdb p = some e.2 := by
  unfold unchangedOf
  rw [memPaths_filter]
  constructor
  · rintro ⟨e, he, hp, hf⟩
    refine ⟨e, he, hp, ?_⟩
    rw [← hp]
    simpa using hf
  · rintro ⟨e, he, hp, hdb⟩
    refine ⟨e, he, hp, ?_⟩
    rw [hp, hdb]
    simp

theorem mem_deletions_iff (hashdb : HashDb) (filelist : Fs) (p : Str) :
    p ∈ (diffOf hashdb filelist).deletions ↔
      p ∈ keys hashdb ∧ memPaths filelist p = false := by
  rw [show (diffOf hashdb filelist).deletions
      = (keys hashdb).filter (fun k => !memPaths filelist k) from rfl]
  rw [List.mem_filter]
  constructor
  · rintro ⟨h1, h2⟩
    exact ⟨h1, by simpa using h2⟩
  · rintro ⟨h1, h2⟩
    exact ⟨h1, by simp [h2]⟩

/-- C2: the diff computed by `check` classifies every path into exactly one
of addition, change, deletion, unchanged: the additions, the changes and
the implicitly-unchanged entries together cover exactly the scanned paths;
the changes, the implicitly-unchanged entries and the deletions together
cover exactly the database keys; and no path appears in more than one of
the three explicit collections. -/
theorem diff_classification_partition (hashdb : HashDb) (filelist : Fs) :
    (∀ p, memPaths filelist p = true ↔
        (memPaths (diffOf hashdb filelist).additions p = true
          ∨ memPaths (diffOf hashdb filelist).changes p = true
          ∨ memPaths (unchangedOf hashdb filelist) p = true))
    ∧ (∀ p, p ∈ keys hashdb ↔
        (memPaths (diffOf hashdb filelist).changes p = true
          ∨ memPaths (unchangedOf hashdb filelist) p = true
          ∨ p ∈ (diffOf hashdb filelist).deletions))
    ∧ (∀ p, memPaths (diffOf hashdb filelist).additions p = true →
        memPaths (diffOf hashdb filelist).changes p = false
          ∧ p ∉ (diffOf hashdb filelist).deletions)
    ∧ (∀ p, memPaths (diffOf hashdb filelist).changes p = true →
        p ∉ (diffOf hashdb filelist).deletions) := by
  refine ⟨?_, ?_, ?_, ?_⟩
  · intro p
    constructor
    · intro hm
      obtain ⟨e, he, hp⟩ := exists_of_memPaths _ _ hm
      cases hdb : dget hashdb p with
      | none =>
        exact Or.inl ((memPaths_additions_iff _ _ _).mpr ⟨hm, hdb⟩)
      | some h0 =>
        by_cases hval : h0 = e.2
        · refine Or.inr (Or.inr ((memPaths_unchanged_iff _ _ _).mpr
            ⟨e, he, hp, ?_⟩))
          rw [hdb, hval]
        · exact Or.inr (Or.inl ((memPaths_changes_iff _ _ _).mpr
            ⟨e, he, hp, h0, hdb, hval⟩))
    · rintro (h | h | h)
      · exact ((memPaths_additions_iff _ _ _).mp h).1
      · obtain ⟨e, he, hp, _⟩ := (memPaths_changes_iff _ _ _).mp h
        exact hp ▸ memPaths_true_of_mem _ _ he
      · obtain ⟨e, he, hp, _⟩ := (memPaths_unchanged_iff _ _ _).mp h
        exact hp ▸ memPaths_true_of_mem _ _ he
  · intro p
    constructor
    · intro hk
      cases hm : memPaths filelist p with
      | false =>
        exact Or.inr (Or.inr ((mem_deletions_iff _ _ _).mpr ⟨hk, hm⟩))
      | true =>
        obtain ⟨e, he, hp⟩ := exists_of_memPaths _ _ hm
        obtain ⟨h0, hdb⟩ := Option.isSome_iff_exists.mp
          ((dget_isSome_iff_mem_keys _ _).mpr hk)
        by_cases hval : h0 = e.2
        · refine Or.inr (Or.inl ((memPaths_unchanged_iff _ _ _).mpr
            ⟨e, he, hp, ?_⟩))
          rw [hdb, hval]
        · exact Or.inl ((memPaths_changes_iff _ _ _).mpr
            ⟨e, he, hp, h0, hdb, hval⟩)
    · rintro (h | h | h)
      · obtain ⟨e, _, _, h0, hdb, _⟩ := (memPaths_changes_iff _ _ _).mp h
        rw [← dget_isSome_iff_mem_keys, hdb]
        rfl
      · obtain ⟨e, _, _, hdb⟩ := (memPaths_unchanged_iff _ _ _).mp h
        rw [← dget_isSome_iff_mem_keys, hdb]
        rfl
      · exact ((mem_deletions_iff _ _ _).mp h).1
  · intro p hadd
    obtain ⟨hm, hnone⟩ := (memPaths_additions_iff _ _ _).mp hadd
    constructor
    · cases hch : memPaths (diffOf hashdb filelist).changes p with
      | false => rfl
      | true =>
        obtain ⟨e, _, _, h0, hdb, _⟩ := (memPaths_changes_iff _ _ _).mp hch
        rw [hnone] at hdb
        exact absurd hdb (by simp)
    · intro hdel
      have := ((mem_deletions_iff _ _ _).mp hdel).2
      rw [hm] at this
      exact Bool.true_eq_false ▸ absurd this (by simp)
  · intro p hch hdel
    obtain ⟨e, he, hp, _⟩ := (memPaths_changes_iff _ _ _).mp hch
    have hm : memPaths filelist p = true := hp ▸ memPaths_true_of_mem _ _ he
    have := ((mem_deletions_iff _ _ _).mp hdel).2
    rw [hm] at this
    exact absurd this (by simp)

theorem write_db_load_db_eq (db : HashDb)
    (hnd : (keys db).Nodup)
    (hsafe : ∀ e ∈ db, safeKey e.1 = true ∧ safeDigest e.2 = true) :
    load_db (write_db db) = some db := by
  unfold load_db
  rw [loadLines_write_db db [] hsafe hnd (by intro k _; simp [keys])]
  simp

/-- C4 (amended): for every mapping whose keys are distinct, nonempty,
contain no tab, newline or carriage return, and do not end in a whitespace
character, and whose digests contain no tab, newline or carriage return,
writing it with `write_db` and loading the result with `load_db`
reproduces the mapping exactly (in particular up to any reordering of the
key→digest pairs). -/
theorem write_load_db_roundtrip (db : HashDb)
    (hnd : (keys db).Nodup)
    (hsafe : ∀ e ∈ db, safeKey e.1 = true ∧ safeDigest e.2 = true) :
    load_db (write_db db) = some db :=
  write_db_load_db_eq db hnd hsafe

/-- Witness: the amended round-trip theorem applied to `wdb4`. -/
theorem write_load_db_roundtrip_witness :
    (keys wdb4).Nodup
    ∧ (∀ e ∈ wdb4, safeKey e.1 = true ∧ safeDigest e.2 = true)
    ∧ load_db (write_db wdb4) = some wdb4 :=
  ⟨by decide, by decide, write_load_db_roundtrip wdb4 (by decide) (by decide)⟩

/-- C4 counterexample: `cdb4`'s key contains no tab character, yet
`load_db (write_db cdb4)` raises `ValueError` (modelled `none`) instead of
reproducing `cdb4`: the newline in the key splits the record across two
lines and the second line has no tab. -/
theorem write_load_db_newline_counterexample :
    (∀ e ∈ cdb4, '\t' ∉ e.1) ∧ load_db (write_db cdb4) = none := by
  constructor
  · decide
  · decide

/-- C3 (amended): for every tree whose file paths are distinct and
serialization-safe (nonempty, no newline or carriage return, not ending in
whitespace) and whose digests contain no tab, newline or carriage return,
committing the diff through `interactive_check` (which folds the diff into
the database and saves it with `write_db`) and then re-checking the
unchanged filesystem — which reloads the saved database with `load_db`
and re-scans — yields an empty diff: no additions, no changes, no
deletions. -/
theorem commit_roundtrip_empty_diff (t : Tree) (res : ICResult)
    (hnd : (keys t.files).Nodup)
    (hsafe : ∀ e ∈ t.files, safeKey e.1 = true ∧ safeDigest e.2 = true)
    (hic : interactive_check t yesLine = some res) :
    ∃ r2, check res.tree = some r2
      ∧ r2.additions = [] ∧ r2.changes = [] ∧ r2.deletions = [] := by
  unfold interactive_check at hic
  cases hc : check t with
  | none =>
    rw [hc] at hic
    exact absurd hic (by simp)
  | some results =>
    rw [hc] at hic
    rw [show (!startswithY yesLine) = false from rfl] at hic
    simp only [Bool.false_eq_true, if_false, Option.some_inj] at hic
    obtain ⟨helim, hnddb⟩ := check_elim t results hc
    have hndf : (keys (scanFiles t.files)).Nodup :=
      List.Nodup.sublist (keys_filter_sublist _ _) hnd
    have hag : ∀ p, dget (commitDiff results) p = dget (scanFiles t.files) p := by
      intro p
      conv_lhs => rw [helim]
      exact dget_commitDiff_diffOf results.db (scanFiles t.files) hndf p
    have hnd2 : (keys (commitDiff results)).Nodup := nodup_keys_commitDiff results hnddb
    have hsafe2 : ∀ e ∈ commitDiff results,
        safeKey e.1 = true ∧ safeDigest e.2 = true := by
      intro e he
      have h1 : dget (commitDiff results) e.1 = some e.2 :=
        dget_eq_some_of_mem_nodup _ _ _ hnd2 (by exact he)
      rw [hag e.1] at h1
      have h2 : (e.1, e.2) ∈ scanFiles t.files := mem_of_dget_eq_some _ _ _ h1
      have h3 : (e.1, e.2) ∈ t.files := (List.mem_filter.mp h2).1
      exact hsafe (e.1, e.2) h3
    have hload : load_db (write_db (commitDiff results)) = some (commitDiff results) :=
      write_db_load_db_eq _ hnd2 hsafe2
    have htree : res.tree = { t with sidecar := some (write_db (commitDiff results)) } := by
      rw [← hic]
    refine ⟨diffOf (commitDiff results) (scanFiles t.files), ?_, ?_, ?_, ?_⟩
    · rw [htree]
      unfold check
      simp only
      rw [hload]
    · exact (diffOf_empty_of_agree _ _ hndf hag).1
    · exact (diffOf_empty_of_agree _ _ hndf hag).2.1
    · exact (diffOf_empty_of_agree _ _ hndf hag).2.2

/-- Witness: the commit round-trip theorem applied to `wt3`. -/
theorem commit_roundtrip_empty_diff_witness :
    interactive_check wt3 yesLine = some res3
    ∧ ∃ r2, check res3.tree = some r2
        ∧ r2.additions = [] ∧ r2.changes = [] ∧ r2.deletions = [] :=
  ⟨by decide, commit_roundtrip_empty_diff wt3 res3 (by decide) (by decide) (by decide)⟩

/-- C3 counterexample: on the tree `ct3` — whose only file is named
`"a\nb"` — committing the diff succeeds and saves the database, but
re-checking the unchanged filesystem does not produce an empty diff: the
reload step fails (`check` returns `none`, modelling the `ValueError`
raised on the corrupted sidecar line), so the claimed round trip fails for
this directory state. -/
theorem commit_roundtrip_newline_counterexample :
    interactive_check ct3 yesLine = some cres3 ∧ check cres3.tree = none := by
  constructor
  · decide
  · decide

/-- C1: if either tree's diff against its own hash database is non-empty,
`replicate` refuses: it performs zero file copies and leaves both trees —
files, directories and sidecar databases — exactly as they were, writing
no database on either side. -/
theorem replicate_dirty_refused_no_mutation (src dst : Tree)
    (srcdata dstdata : CheckResult)
    (hs : check src = some srcdata) (hd : check dst = some dstdata)
    (hdirty : is_dirty srcdata = true ∨ is_dirty dstdata = true) :
    ∃ o, replicate src dst = some
        { srcTree := src, dstTree := dst, copies := [], delCandidates := []
        , written := none, outcome := o }
      ∧ (o = ROutcome.srcDirtyRefused ∨ o = ROutcome.dstDirtyRefused) := by
  by_cases h1 : is_dirty srcdata = true
  · refine ⟨ROutcome.srcDirtyRefused, ?_, Or.inl rfl⟩
    simp [replicate, hs, hd, h1]
  · have h1f : is_dirty srcdata = false := by
      cases hb : is_dirty srcdata
      · rfl
      · exact absurd hb h1
    have h2 : is_dirty dstdata = true := by
      rcases hdirty with hh | hh
      · exact absurd hh h1
      · exact hh
    refine ⟨ROutcome.dstDirtyRefused, ?_, Or.inr rfl⟩
    simp [replicate, hs, hd, h1f, h2]

/-- Witness: the replication-safety theorem applied to a dirty source. -/
theorem replicate_dirty_refused_witness :
    ∃ o, replicate dsrc1 ddst1 = some
        { srcTree := dsrc1, dstTree := ddst1, copies := [], delCandidates := []
        , written := none, outcome := o }
      ∧ (o = ROutcome.srcDirtyRefused ∨ o = ROutcome.dstDirtyRefused) :=
  replicate_dirty_refused_no_mutation dsrc1 ddst1 sd1 dd1
    (by decide) (by decide) (Or.inl (by decide))

/-- C6 (amended): for every reviewer line that does not begin with `y` or
`Y`, the review workflow performs no database mutation — but it terminates
via `exit(0)`, the success exit code: the canceled outcome is
distinguishable from a commit only by the printed "Canceled." message and
the absence of a database write, not by a non-zero exit status. -/
theorem cancel_no_mutation_exit_zero (t : Tree) (commit : Str)
    (results : CheckResult)
    (hc : check t = some results) (hn : startswithY commit = false) :
    interactive_check t commit
      = some { tree := t, written := none, outcome := ICOutcome.canceled 0 } := by
  simp [interactive_check, hc, hn]

/-- Witness: the amended cancellation theorem applied to `t6` and the
line `"n"`. -/
theorem cancel_no_mutation_exit_zero_witness :
    interactive_check t6 noLine
      = some { tree := t6, written := none, outcome := ICOutcome.canceled 0 } :=
  cancel_no_mutation_exit_zero t6 noLine r6 (by decide) (by decide)

/-- C6 counterexample: declining the commit on `t6` leaves the tree
untouched but terminates through `exit(0)` — exit code 0, the success
code — so the claimed non-zero-equivalent "canceled" outcome does not
exist: by constructor injectivity the run's exit code is exactly 0. -/
theorem cancel_exit_zero_counterexample :
    interactive_check t6 ['n', 'o']
      = some { tree := t6, written := none, outcome := ICOutcome.canceled 0 } := by
  decide

theorem copy2_dget_ne (srcFiles : Fs) (sf : Str) (dstFiles files' : Fs)
    (p : Str) (hne : sf ≠ p)
    (h : copy2 srcFiles sf dstFiles = some files') :
    dget files' p = dget dstFiles p := by
  unfold copy2 at h
  cases hsg : dget srcFiles sf with
  | none =>
    rw [hsg] at h
    exact absurd h (by simp)
  | some ch =>
    rw [hsg] at h
    simp only [Option.some_inj] at h
    rw [← h]
    exact dget_dinsert_ne _ _ _ _ (Ne.symm hne)

theorem replicateAdd_preserves (srcFiles : Fs) (dstRoot : Str)
    (st st1 : RState) (sf sh p : Str) (hne : sf ≠ p)
    (h : replicateAdd srcFiles dstRoot st sf sh = some st1) :
    dget st1.newdsthash p = dget st.newdsthash p
      ∧ dget st1.dstFiles p = dget st.dstFiles p := by
  unfold replicateAdd at h
  cases hmp : make_parents st.dstDirs (pyJoin dstRoot sf) with
  | none =>
    rw [hmp] at h
    exact absurd h (by simp)
  | some dirs' =>
    rw [hmp] at h
    cases hc2 : copy2 srcFiles sf st.dstFiles with
    | none =>
      rw [hc2] at h
      exact absurd h (by simp)
    | some files' =>
      rw [hc2] at h
      simp only [Option.some_inj] at h
      rw [← h]
      exact ⟨dget_dinsert_ne _ _ _ _ (Ne.symm hne),
        copy2_dget_ne srcFiles sf st.dstFiles files' p hne hc2⟩

theorem replicateStep_preserves (srcFiles : Fs) (dstRoot : Str)
    (st st1 : RState) (e : Str × Str) (p : Str) (hne : e.1 ≠ p)
    (h : replicateStep srcFiles dstRoot st e = some st1) :
    dget st1.newdsthash p = dget st.newdsthash p
      ∧ dget st1.dstFiles p = dget st.dstFiles p := by
  unfold replicateStep at h
  cases hget : dget st.newdsthash e.1 with
  | none =>
    rw [hget] at h
    exact replicateAdd_preserves srcFiles dstRoot st st1 e.1 e.2 p hne h
  | some dsthash =>
    rw [hget] at h
    have h2 : (if dsthash = [] then replicateAdd srcFiles dstRoot st e.1 e.2
        else if dsthash ≠ e.2 then
          match copy2 srcFiles e.1 st.dstFiles with
          | none => none
          | some files' =>
            some { st with dstFiles := files',
                           newdsthash := dinsert st.newdsthash e.1 e.2,
                           copies := st.copies ++ [e.1] }
        else some st) = some st1 := h
    by_cases hemp : dsthash = []
    · rw [if_pos hemp] at h2
      exact replicateAdd_preserves srcFiles dstRoot st st1 e.1 e.2 p hne h2
    · rw [if_neg hemp] at h2
      by_cases hch : dsthash ≠ e.2
      · rw [if_pos hch] at h2
        cases hc2 : copy2 srcFiles e.1 st.dstFiles with
        | none =>
          rw [hc2] at h2
          exact absurd h2 (by simp)
        | some files' =>
          rw [hc2] at h2
          simp only [Option.some_inj] at h2
          rw [← h2]
          exact ⟨dget_dinsert_ne _ _ _ _ (Ne.symm hne),
            copy2_dget_ne srcFiles e.1 st.dstFiles files' p hne hc2⟩
      · rw [if_neg hch] at h2
        simp only [Option.some_inj] at h2
        rw [← h2]
        exact ⟨rfl, rfl⟩

theorem runLoop_preserves_other (srcFiles : Fs) (dstRoot : Str)
    (entries : List (Str × Str)) (p : Str) :
    ∀ st st' : RState,
      (∀ e ∈ entries, e.1 ≠ p) →
      runLoop srcFiles dstRoot entries st = some st' →
      dget st'.newdsthash p = dget st.newdsthash p
        ∧ dget st'.dstFiles p = dget st.dstFiles p := by
  induction entries with
  | nil =>
    intro st st' _ hrun
    simp only [runLoop, Option.some_inj] at hrun
    rw [← hrun]
    exact ⟨rfl, rfl⟩
  | cons e rest ih =>
    intro st st' h hrun
    simp only [runLoop] at hrun
    cases hstep : replicateStep srcFiles dstRoot st e with
    | none =>
      rw [hstep] at hrun
      exact absurd hrun (by simp)
    | some st1 =>
      rw [hstep] at hrun
      have h1 := replicateStep_preserves srcFiles dstRoot st st1 e p
        (h e (List.mem_cons_self _ _)) hstep
      have h2 := ih st1 st' (fun e' he' => h e' (List.mem_cons_of_mem _ he')) hrun
      exact ⟨h2.1.trans h1.1, h2.2.trans h1.2⟩

/-- C7: in every completed `replicate` run (which implies both trees passed
the dirty gates), a path present in the destination's working hash
database but absent from the source's database is reported as a candidate
deletion, its destination file is left untouched, and its entry — key and
digest — is still present in the database persisted to the destination
sidecar. -/
theorem replicate_reports_never_deletes (src dst : Tree)
    (srcdata dstdata : CheckResult) (r : ReplicateResult) (p h0 : Str)
    (hs : check src = some srcdata) (hd : check dst = some dstdata)
    (hr : replicate src dst = some r) (hco : r.outcome = ROutcome.completed)
    (hab : dget srcdata.db p = none) (hin : dget dstdata.db p = some h0) :
    p ∈ r.delCandidates
      ∧ (∃ w, r.written = some w ∧ dget w p = some h0)
      ∧ dget r.dstTree.files p = dget dst.files p := by
  have h1f : is_dirty srcdata = false := by
    cases hb : is_dirty srcdata
    · rfl
    · have hrf : replicate src dst = some
          { srcTree := src, dstTree := dst, copies := [], delCandidates := []
          , written := none, outcome := .srcDirtyRefused } := by
        simp [replicate, hs, hd, hb]
      rw [hrf] at hr
      simp only [Option.some_inj] at hr
      rw [← hr] at hco
      exact absurd hco (by simp)
  have h2f : is_dirty dstdata = false := by
    cases hb : is_dirty dstdata
    · rfl
    · have hrf : replicate src dst = some
          { srcTree := src, dstTree := dst, copies := [], delCandidates := []
          , written := none, outcome := .dstDirtyRefused } := by
        simp [replicate, hs, hd, h1f, hb]
      rw [hrf] at hr
      simp only [Option.some_inj] at hr
      rw [← hr] at hco
      exact absurd hco (by simp)
  cases hrun : runLoop src.files dst.root srcdata.db
      { dstFiles := dst.files, dstDirs := dst.dirs
      , newdsthash := dstdata.db, copies := [] } with
  | none =>
    have hrf : replicate src dst = none := by
      simp [replicate, hs, hd, h1f, h2f, hrun]
    rw [hrf] at hr
    exact absurd hr (by simp)
  | some st =>
    have hrepl : replicate src dst = some
        { srcTree := src
        , dstTree := { dst with files := st.dstFiles,
                                dirs := st.dstDirs,
                                sidecar := some (write_db st.newdsthash) }
        , copies := st.copies
        , delCandidates := (keys st.newdsthash).filter
            (fun f => pyFalsy (dget srcdata.db f))
        , written := some st.newdsthash
        , outcome := .completed } := by
      simp [replicate, hs, hd, h1f, h2f, hrun]
    rw [hrepl] at hr
    simp only [Option.some_inj] at hr
    have hfne : ∀ e ∈ srcdata.db, e.1 ≠ p := by
      intro e he hp
      have hsome := dget_isSome_of_fst_mem srcdata.db e he
      rw [hp, hab] at hsome
      exact absurd hsome (by simp)
    have hpres := runLoop_preserves_other src.files dst.root srcdata.db p
      { dstFiles := dst.files, dstDirs := dst.dirs
      , newdsthash := dstdata.db, copies := [] } st hfne hrun
    have hget : dget st.newdsthash p = some h0 := by
      rw [hpres.1]
      exact hin
    have hkmem : p ∈ keys st.newdsthash :=
      (dget_isSome_iff_mem_keys _ _).mp (by rw [hget]; rfl)
    have hcand : p ∈ (keys st.newdsthash).filter
        (fun f => pyFalsy (dget srcdata.db f)) := by
      rw [List.mem_filter]
      refine ⟨hkmem, ?_⟩
      rw [hab]
      rfl
    rw [← hr]
    exact ⟨hcand, ⟨st.newdsthash, rfl, hget⟩, hpres.2⟩

/-- Witness: the destructive-refusal theorem applied to the concrete run
`replicate wsrc wdst` and the destination-only path `o`. -/
theorem replicate_reports_never_deletes_witness :
    (['o'] : Str) ∈ wrres.delCandidates
      ∧ (∃ w, wrres.written = some w ∧ dget w ['o'] = some ['z'])
      ∧ dget wrres.dstTree.files ['o'] = dget wdst.files ['o'] :=
  replicate_reports_never_deletes wsrc wdst wsrcdata wdstdata wrres ['o'] ['z']
    (by decide) (by decide) (by decide) (by decide) (by decide) (by decide)

/-- C5 (code bug): `make_parents` must create every missing ancestor of the
target file, but for `/d/a/b/c` — two missing levels, `/d/a` and `/d/a/b` —
it calls `os.mkdir("/d/a/b")` first, which raises `FileNotFoundError`
because `/d/a` does not exist (modelled `none`).  With a single missing
level (`/d/a/c`) it does succeed and creates `/d/a`, confirming the loop's
intent. -/
theorem make_parents_two_missing_levels_fails :
    make_parents mpDirs ['/', 'd', '/', 'a', '/', 'b', '/', 'c'] = none
    ∧ make_parents mpDirs ['/', 'd', '/', 'a', '/', 'c']
        = some [['/', 'd', '/', 'a'], ['/'], ['/', 'd']] := by
  constructor
  · decide
  · decide

/-- C8 (code bug): an unrecognized subcommand reaches
`print("Unrecognize subcommand ", sumcommand)` where `sumcommand` is an
unbound name, so a `NameError` escapes before `usage()` runs: the process
dies with a traceback (interpreter exit code 1) and the usage message is
never printed.  A missing subcommand, by contrast, does print usage and
exit 1. -/
theorem unknown_subcommand_name_error :
    mainDispatch ["freeze.py".toList, "frobnicate".toList] = MainResult.nameError
    ∧ mainDispatch ["freeze.py".toList] = MainResult.usageExit 1
    ∧ ∀ c, MainResult.nameError ≠ MainResult.usageExit c := by
  refine ⟨by decide, by decide, ?_⟩
  intro c h
  exact MainResult.noConfusion h

/-- C9: a file whose name ends with `".sha1sums"` or `".sha1sums_new"` —
at any depth, since the suffix test applies to every walked file — is
excluded from the scan, so it never appears among the scanned paths, the
additions or the changes of any diff. -/
theorem sidecar_suffix_excluded (files : Fs) (hashdb : HashDb) (p : Str)
    (h : endswith p sha1sumsSuffix = true ∨ endswith p sha1sumsNewSuffix = true) :
    memPaths (scanFiles files) p = false
    ∧ memPaths (diffOf hashdb (scanFiles files)).additions p = false
    ∧ memPaths (diffOf hashdb (scanFiles files)).changes p = false := by
  have hmain : memPaths (scanFiles files) p = false := by
    cases hb : memPaths (scanFiles files) p with
    | false => rfl
    | true =>
      obtain ⟨e, he, hp⟩ := exists_of_memPaths _ _ hb
      have hf := (List.mem_filter.mp he).2
      rw [hp] at hf
      unfold excluded at hf
      rcases h with h | h <;> rw [h] at hf <;> simp at hf
  refine ⟨hmain, ?_, ?_⟩
  · cases hb : memPaths (diffOf hashdb (scanFiles files)).additions p with
    | false => rfl
    | true =>
      have hm := ((memPaths_additions_iff _ _ _).mp hb).1
      rw [hmain] at hm
      exact absurd hm (by simp)
  · cases hb : memPaths (diffOf hashdb (scanFiles files)).changes p with
    | false => rfl
    | true =>
      obtain ⟨e, he, hp, _⟩ := (memPaths_changes_iff _ _ _).mp hb
      have hm : memPaths (scanFiles files) p = true :=
        hp ▸ memPaths_true_of_mem _ _ he
      rw [hmain] at hm
      exact absurd hm (by simp)

/-- Witness: the exclusion theorem applied to the path `".sha1sums"`. -/
theorem sidecar_suffix_excluded_witness :
    memPaths (scanFiles files9) sha1sumsSuffix = false
    ∧ memPaths (diffOf [] (scanFiles files9)).additions sha1sumsSuffix = false
    ∧ memPaths (diffOf [] (scanFiles files9)).changes sha1sumsSuffix = false :=
  sidecar_suffix_excluded files9 [] sha1sumsSuffix (Or.inl (by decide))

/-- C10: `check` performs only reads — its state translation returns the
tree unchanged — and a sidecar is written solely by `interactive_check`
after an affirmative answer (the only run that ends `committed`) and by
`replicate` after both dirty gates pass (the only run that ends
`completed`); `replicate` never touches the source tree. -/
theorem check_reads_only_writes_gated :
    (∀ t t' r, check_st t = some (t', r) → t' = t)
    ∧ (∀ t commit res, interactive_check t commit = some res →
        res.tree.root = t.root ∧ res.tree.files = t.files
          ∧ res.tree.dirs = t.dirs
          ∧ (res.written ≠ none →
              startswithY commit = true ∧ res.outcome = ICOutcome.committed))
    ∧ (∀ src dst r, replicate src dst = some r →
        r.srcTree = src
          ∧ (r.written ≠ none → r.outcome = ROutcome.completed)
          ∧ (r.dstTree ≠ dst → r.outcome = ROutcome.completed)) := by
  refine ⟨?_, ?_, ?_⟩
  · intro t t' r h
    unfold check_st at h
    cases hc : check t with
    | none =>
      rw [hc] at h
      exact absurd h (by simp)
    | some r0 =>
      rw [hc] at h
      simp only [Option.some_inj] at h
      injection h with h1 h2
      exact h1.symm
  · intro t commit res h
    unfold interactive_check at h
    cases hc : check t with
    | none =>
      rw [hc] at h
      exact absurd h (by simp)
    | some results =>
      rw [hc] at h
      have h2 : (if !startswithY commit then
          some { tree := t, written := none, outcome := ICOutcome.canceled 0 }
        else
          some { tree := { t with sidecar := some (write_db (commitDiff results)) }
               , written := some (commitDiff results)
               , outcome := ICOutcome.committed }) = some res := h
      cases hy : startswithY commit with
      | false =>
        rw [hy] at h2
        simp only [Bool.not_false, if_true, Option.some_inj] at h2
        rw [← h2]
        exact ⟨rfl, rfl, rfl, fun hw => absurd rfl hw⟩
      | true =>
        rw [hy] at h2
        simp only [Bool.not_true, Bool.false_eq_true, if_false,
          Option.some_inj] at h2
        rw [← h2]
        exact ⟨rfl, rfl, rfl, fun _ => ⟨rfl, rfl⟩⟩
  · intro src dst r h
    cases hcs : check src with
    | none =>
      have hrf : replicate src dst = none := by simp [replicate, hcs]
      rw [hrf] at h
      exact absurd h (by simp)
    | some srcdata =>
      cases hcd : check dst with
      | none =>
        have hrf : replicate src dst = none := by simp [replicate, hcs, hcd]
        rw [hrf] at h
        exact absurd h (by simp)
      | some dstdata =>
        cases h1 : is_dirty srcdata with
        | true =>
          have hrf : replicate src dst = some
              { srcTree := src, dstTree := dst, copies := []
              , delCandidates := [], written := none
              , outcome := .srcDirtyRefused } := by
            simp [replicate, hcs, hcd, h1]
          rw [hrf] at h
          simp only [Option.some_inj] at h
          rw [← h]
          exact ⟨rfl, fun hw => absurd rfl hw, fun hd => absurd rfl hd⟩
        | false =>
          cases h2 : is_dirty dstdata with
          | true =>
            have hrf : replicate src dst = some
                { srcTree := src, dstTree := dst, copies := []
                , delCandidates := [], written := none
                , outcome := .dstDirtyRefused } := by
              simp [replicate, hcs, hcd, h1, h2]
            rw [hrf] at h
            simp only [Option.some_inj] at h
            rw [← h]
            exact ⟨rfl, fun hw => absurd rfl hw, fun hd => absurd rfl hd⟩
          | false =>
            cases hrun : runLoop src.files dst.root srcdata.db
                { dstFiles := dst.files, dstDirs := dst.dirs
                , newdsthash := dstdata.db, copies := [] } with
            | none =>
              have hrf : replicate src dst = none := by
                simp [replicate, hcs, hcd, h1, h2, hrun]
              rw [hrf] at h
              exact absurd h (by simp)
            | some st =>
              have hrf : replicate src dst = some
                  { srcTree := src
                  , dstTree := { dst with files := st.dstFiles,
                                          dirs := st.dstDirs,
                                          sidecar := some (write_db st.newdsthash) }
                  , copies := st.copies
                  , delCandidates := (keys st.newdsthash).filter
                      (fun f => pyFalsy (dget srcdata.db f))
                  , written := some st.newdsthash
                  , outcome := .completed } := by
                simp [replicate, hcs, hcd, h1, h2, hrun]
              rw [hrf] at h
              simp only [Option.some_inj] at h
              rw [← h]
              exact ⟨rfl, fun _ => rfl, fun _ => rfl⟩

/-- Witness: the three gating facts instantiated on the concrete runs
`check_st t6`, `interactive_check t6 noLine` and `replicate wsrc wdst`. -/
theorem check_reads_only_writes_gated_witness :
    t6 = t6
    ∧ (cres10.tree.root = t6.root ∧ cres10.tree.files = t6.files
        ∧ cres10.tree.dirs = t6.dirs
        ∧ (cres10.written ≠ none →
            startswithY noLine = true ∧ cres10.outcome = ICOutcome.committed))
    ∧ (wrres.srcTree = wsrc
        ∧ (wrres.written ≠ none → wrres.outcome = ROutcome.completed)
        ∧ (wrres.dstTree ≠ wdst → wrres.outcome = ROutcome.completed)) :=
  ⟨check_reads_only_writes_gated.1 t6 t6 r6 (by decide),
   check_reads_only_writes_gated.2.1 t6 noLine cres10 (by decide),
   check_reads_only_writes_gated.2.2 wsrc wdst wrres (by decide)⟩

end Freeze
